import Mathlib

/-!
Verification development for the license-key inventory bot (src/bot.py).

The authoritative store is the sqlite table keys(id AUTOINCREMENT, program,
duration, key UNIQUE, used_by, used_for, used_at); we model it as a list of
rows kept in insertion order (with AUTOINCREMENT, rowid order coincides with
insertion order, and an unordered SELECT scans the table in rowid order).
File contents are lists of characters; Python string primitives
(str.replace, str.strip, str.splitlines) are modeled on lists of characters,
including the full set of line-break characters recognised by splitlines and
the whitespace set stripped by strip.  A mirror file that does not exist on
disk behaves, for every operation modeled here, exactly like one with empty
content (reading fails the existence check and nothing matches; appending
creates it; wiping creates it empty), so file state is just the content.
-/

namespace LicenseBot

/-- File contents, key values, program and duration names: Python strings,
modeled as lists of characters. -/
abbrev Str := List Char

/-- The characters str.splitlines breaks on (in the BMP range used here):
LF, CR, vertical tab, form feed, FS, GS, RS, NEL, LS, PS. -/
def isLineBreak (c : Char) : Bool :=
  c = '\n' || c = '\r' || c = Char.ofNat 0x0b || c = Char.ofNat 0x0c ||
  c = Char.ofNat 0x1c || c = Char.ofNat 0x1d || c = Char.ofNat 0x1e ||
  c = Char.ofNat 0x85 || c = Char.ofNat 0x2028 || c = Char.ofNat 0x2029

/-- The whitespace characters removed by str.strip with no argument: every
character with str.isspace true, that is tab, LF, VT, FF, CR, FS, GS, RS,
US, space, NEL, no-break space, Ogham space mark, the U+2000 to U+200A
spaces, the line and paragraph separators, narrow no-break space, medium
mathematical space and ideographic space. -/
def isPyWS (c : Char) : Bool :=
  c = ' ' || c = '\t' || c = '\n' || c = '\r' ||
  c = Char.ofNat 0x0b || c = Char.ofNat 0x0c ||
  c = Char.ofNat 0x1c || c = Char.ofNat 0x1d || c = Char.ofNat 0x1e ||
  c = Char.ofNat 0x1f || c = Char.ofNat 0x85 ||
  c = Char.ofNat 0xa0 || c = Char.ofNat 0x1680 ||
  c = Char.ofNat 0x2000 || c = Char.ofNat 0x2001 || c = Char.ofNat 0x2002 ||
  c = Char.ofNat 0x2003 || c = Char.ofNat 0x2004 || c = Char.ofNat 0x2005 ||
  c = Char.ofNat 0x2006 || c = Char.ofNat 0x2007 || c = Char.ofNat 0x2008 ||
  c = Char.ofNat 0x2009 || c = Char.ofNat 0x200a ||
  c = Char.ofNat 0x2028 || c = Char.ofNat 0x2029 ||
  c = Char.ofNat 0x202f || c = Char.ofNat 0x205f || c = Char.ofNat 0x3000

/-- str.lstrip: drop leading whitespace. -/
def pyLStrip (s : Str) : Str := s.dropWhile isPyWS

/-- str.rstrip: drop trailing whitespace. -/
def pyRStrip (s : Str) : Str := (s.reverse.dropWhile isPyWS).reverse

/-- str.strip: drop leading and trailing whitespace. -/
def pyStrip (s : Str) : Str := pyRStrip (pyLStrip s)

/-- After a CR break, an immediately following LF belongs to the same break
and is consumed. -/
def dropLFHead (s : Str) : Str := if s.head? = some '\n' then s.tail else s

theorem dropLFHead_length (s : Str) : (dropLFHead s).length ≤ s.length := by
  unfold dropLFHead
  split
  · exact s.length_tail ▸ Nat.sub_le _ _
  · exact Nat.le_refl _

/-- Accumulator pass of str.splitlines: cur holds the current line reversed.
A CR immediately followed by LF counts as a single break; a final break
does not open a new (empty) last line. -/
def splitlinesAux (cur : Str) : Str → List Str
  | [] => if cur.isEmpty then [] else [cur.reverse]
  | c :: cs =>
    if c = '\r' then cur.reverse :: splitlinesAux [] (dropLFHead cs)
    else if isLineBreak c then cur.reverse :: splitlinesAux [] cs
    else splitlinesAux (c :: cur) cs
termination_by s => s.length
decreasing_by
  all_goals simp only [List.length_cons]
  · exact Nat.lt_succ_of_le (dropLFHead_length cs)
  · exact Nat.lt_succ_self _
  · exact Nat.lt_succ_self _

/-- str.splitlines. -/
def pySplitlines (s : Str) : List Str := splitlinesAux [] s

/-- Join lines with a single LF between them (the Python expression
used by the mirror rewrite, chr(10).join(lines)). -/
def joinNL : List Str → Str
  | [] => []
  | [l] => l
  | l :: ls => l ++ '\n' :: joinNL ls

/-- One mirror line as written by the import path: the value plus LF. -/
def mirrorLine (v : Str) : Str := v ++ ['\n']

/-- One row of the keys table. -/
structure KeyRow where
  id : Nat
  program : Str
  duration : Str
  value : Str
  used_by : Option Int
  used_for : Option Int
  used_at : Option Nat
  deriving DecidableEq, Repr

/-- The keys table: rows in insertion (rowid) order, plus the next
AUTOINCREMENT id. -/
structure Store where
  rows : List KeyRow
  nextId : Nat
  deriving DecidableEq, Repr

/-- The empty store (freshly created table). -/
def Store.empty : Store := ⟨[], 1⟩

/-- All key values present in the store, in row order. -/
def Store.values (s : Store) : List Str := s.rows.map (·.value)

/-- Well-formedness maintained by the schema: ids are distinct (PRIMARY KEY)
and below the AUTOINCREMENT counter, and values are distinct (UNIQUE). -/
def Store.WF (s : Store) : Prop :=
  (s.rows.map (·.id)).Nodup ∧ s.values.Nodup ∧ ∀ r ∈ s.rows, r.id < s.nextId

/-- The WHERE clause shared by the stock queries: same pool and not yet
claimed (used_at IS NULL). -/
def isUnclaimedIn (program duration : Str) (r : KeyRow) : Bool :=
  r.program = program && r.duration = duration && r.used_at = none

/-- get_stock_count: SELECT COUNT of unclaimed rows of the pool. -/
def get_stock_count (s : Store) (program duration : Str) : Nat :=
  (s.rows.filter (isUnclaimedIn program duration)).length

/-- One INSERT INTO keys(program, duration, key): rejected (IntegrityError
from the UNIQUE constraint) exactly when the value exists anywhere in the
table; otherwise a fresh unclaimed row is appended.  Returns the new store
and whether the insert succeeded. -/
def insert_key (s : Store) (program duration value : Str) : Store × Bool :=
  if value ∈ s.values then (s, false)
  else ({ rows := s.rows ++ [⟨s.nextId, program, duration, value, none, none, none⟩],
          nextId := s.nextId + 1 }, true)

/-- The batch dedup loop of add_stock_via_text: keep first occurrences. -/
def dedupeAux (seen : List Str) : List Str → List Str
  | [] => []
  | k :: ks => if k ∈ seen then dedupeAux seen ks else k :: dedupeAux (k :: seen) ks

/-- The chained str.replace calls of add_stock_via_text: comma, semicolon,
tab and space each become LF. -/
def normalizeSep (c : Char) : Char :=
  if c = ',' || c = ';' || c = '\t' || c = ' ' then '\n' else c

/-- raw_text after the four replace calls. -/
def normalize_text (raw : Str) : Str := raw.map normalizeSep

/-- The token list of add_stock_via_text: normalize, splitlines, strip each
line, drop empties, dedupe keeping first occurrences. -/
def tokenize_keys (raw : Str) : List Str :=
  dedupeAux [] ((((normalize_text raw) |> pySplitlines).map pyStrip).filter (fun k => !k.isEmpty))

/-- The insert loop of add_stock_via_text: try each token, collect those
that inserted (in order) and count the IntegrityError skips. -/
def importLoop (s : Store) (program duration : Str) : List Str → Store × List Str × Nat
  | [] => (s, [], 0)
  | k :: ks =>
    let step := insert_key s program duration k
    let rest := importLoop step.1 program duration ks
    if step.2 then (rest.1, k :: rest.2.1, rest.2.2) else (rest.1, rest.2.1, rest.2.2 + 1)

/-- Result of add_stock_via_text: new store, new mirror content, and the
returned pair (added, skipped_duplicates). -/
structure ImportResult where
  store : Store
  file : Str
  added : Nat
  skipped : Nat
  deriving DecidableEq, Repr

/-- add_stock_via_text: tokenize, insert each surviving token, then append
exactly the inserted values (each as one line) to the mirror file. -/
def add_stock_via_text (s : Store) (program duration raw file : Str) : ImportResult :=
  let res := importLoop s program duration (tokenize_keys raw)
  let file2 := if res.2.1.isEmpty then file else file ++ (res.2.1.map mirrorLine).flatten
  ⟨res.1, file2, res.2.1.length, res.2.2⟩

/-- Result of the transactional part of pop_key. -/
structure ClaimResult where
  store : Store
  result : Option Str
  deriving DecidableEq, Repr

/-- Mark a row claimed (the UPDATE SET used_by, used_for, used_at). -/
def markClaimed (reseller buyer : Int) (now : Nat) (r : KeyRow) : KeyRow :=
  { r with used_by := some reseller, used_for := some buyer, used_at := some now }

/-- The BEGIN IMMEDIATE transaction of pop_key: SELECT the first unclaimed
row of the pool in rowid order (LIMIT 1 over a rowid-order scan); if none,
roll back and return none; else UPDATE that row by id and commit. -/
def claim_one (s : Store) (program duration : Str) (reseller buyer : Int) (now : Nat) :
    ClaimResult :=
  match s.rows.find? (isUnclaimedIn program duration) with
  | none => ⟨s, none⟩
  | some row =>
    ⟨{ s with rows := s.rows.map (fun q =>
        if q.id = row.id then markClaimed reseller buyer now q else q) },
     some row.value⟩

/-- The line-removal loop of remove_key_from_txt: drop the first line whose
stripped content equals the target, keep everything else. -/
def removeFirstLine (target : Str) : List Str → Bool × List Str
  | [] => (false, [])
  | l :: ls =>
    if pyStrip l = target then (true, ls)
    else
      let rest := removeFirstLine target ls
      (rest.1, l :: rest.2)

/-- remove_key_from_txt: read the lines, drop the first match, and only if
one was removed rewrite the file as the joined remaining lines,
right-stripped, plus a final LF when any line remains. -/
def remove_key_from_txt (content : Str) (keyValue : Str) : Bool × Str :=
  let res := removeFirstLine keyValue (pySplitlines content)
  if res.1 then
    (true, pyRStrip (joinNL res.2) ++ (if res.2.isEmpty then [] else ['\n']))
  else (false, content)

/-- Result of pop_key: store, mirror content, and the returned value. -/
structure PopResult where
  store : Store
  file : Str
  result : Option Str
  deriving DecidableEq, Repr

/-- pop_key: run the claim transaction; on success, best-effort remove the
value from the mirror file.  A failed or raising removal (mirrorRaises
models the swallowed exception) leaves the file alone and never affects
the store or the returned value. -/
def pop_key (s : Store) (program duration : Str) (reseller buyer : Int) (now : Nat)
    (file : Str) (mirrorRaises : Bool) : PopResult :=
  match claim_one s program duration reseller buyer now with
  | ⟨s2, none⟩ => ⟨s2, file, none⟩
  | ⟨s2, some v⟩ =>
    ⟨s2, if mirrorRaises then file else (remove_key_from_txt file v).2, some v⟩

/-- Result of the clear_stock command core. -/
structure ClearResult where
  store : Store
  file : Str
  removed : Nat
  deriving DecidableEq, Repr

/-- clear_stock: count the unclaimed rows of the pool, DELETE exactly those,
wipe the mirror file to empty, and report the count. -/
def clear_stock (s : Store) (program duration : Str) : ClearResult :=
  let before := get_stock_count s program duration
  ⟨{ s with rows := s.rows.filter (fun r => !isUnclaimedIn program duration r) },
   [], before⟩

/-- The store-mutating operations of the system. -/
inductive Op where
  | importText (program duration raw : Str)
  | claim (program duration : Str) (reseller buyer : Int) (now : Nat)
  | clear (program duration : Str)
  deriving DecidableEq, Repr

/-- Effect of one operation on the store (mirror files do not feed back
into the store). -/
def applyOp (s : Store) : Op → Store
  | .importText program duration raw => (add_stock_via_text s program duration raw []).store
  | .claim program duration reseller buyer now =>
      (claim_one s program duration reseller buyer now).store
  | .clear program duration => (clear_stock s program duration).store

/-- States reachable from the fresh table by any sequence of operations. -/
def Reachable (s : Store) : Prop :=
  ∃ ops : List Op, s = ops.foldl applyOp Store.empty

/-- A batch of claim requests (reseller, buyer, time) executed one after the
other: BEGIN IMMEDIATE serializes concurrent claimers, so any concurrent
execution is one of these sequential runs. -/
def runClaims (s : Store) (program duration : Str) :
    List (Int × Int × Nat) → Store × List (Option Str)
  | [] => (s, [])
  | (r, b, t) :: rest =>
    let c := claim_one s program duration r b t
    let rest2 := runClaims c.store program duration rest
    (rest2.1, c.result :: rest2.2)

/-! ### Lemmas about the claim path -/

/-- A freshly marked row is no longer unclaimed. -/
@[simp]
theorem isUnclaimedIn_markClaimed (program duration : Str) (reseller buyer : Int)
    (now : Nat) (r : KeyRow) :
    isUnclaimedIn program duration (markClaimed reseller buyer now r) = false := by
  simp [isUnclaimedIn, markClaimed]

/-- Shape of a claim: either the pool has no unclaimed row and nothing
happens, or the row list splits at the first unclaimed row of the pool,
which is the one that gets marked. -/
theorem claim_one_shape (s : Store) (hid : (s.rows.map (·.id)).Nodup)
    (program duration : Str) (reseller buyer : Int) (now : Nat) :
    (get_stock_count s program duration = 0 ∧
      claim_one s program duration reseller buyer now = ⟨s, none⟩) ∨
    (∃ l1 r l2, s.rows = l1 ++ r :: l2 ∧
      (∀ q ∈ l1, isUnclaimedIn program duration q = false) ∧
      isUnclaimedIn program duration r = true ∧
      claim_one s program duration reseller buyer now =
        ⟨⟨l1 ++ markClaimed reseller buyer now r :: l2, s.nextId⟩, some r.value⟩) := by
  cases hfind : s.rows.find? (isUnclaimedIn program duration) with
  | none =>
    left
    rw [List.find?_eq_none] at hfind
    refine ⟨?_, by simp [claim_one, List.find?_eq_none.2 hfind]⟩
    unfold get_stock_count
    simp only [List.length_eq_zero, List.filter_eq_nil_iff]
    intro a ha
    simpa using hfind a ha
  | some row =>
    right
    rw [List.find?_eq_some] at hfind
    obtain ⟨hp, l1, l2, hsplit, hl1⟩ := hfind
    have hl1f : ∀ q ∈ l1, isUnclaimedIn program duration q = false := by
      intro q hq
      simpa using hl1 q hq
    have hid2 := hid
    rw [hsplit, List.map_append, List.map_cons, List.nodup_append] at hid2
    obtain ⟨_, hcons, hdisj⟩ := hid2
    have hne1 : ∀ q ∈ l1, q.id ≠ row.id := by
      intro q hq hcontra
      exact hdisj (List.mem_map_of_mem _ hq) (hcontra ▸ List.mem_cons_self _ _)
    have hne2 : ∀ q ∈ l2, q.id ≠ row.id := by
      intro q hq hcontra
      have := (List.nodup_cons.1 hcons).1
      exact this (hcontra ▸ List.mem_map_of_mem _ hq)
    refine ⟨l1, row, l2, hsplit, hl1f, hp, ?_⟩
    have hfindeq : s.rows.find? (isUnclaimedIn program duration) = some row := by
      rw [List.find?_eq_some]
      exact ⟨hp, l1, l2, hsplit, hl1⟩
    simp only [claim_one, hfindeq]
    have hrows : (s.rows.map (fun q =>
        if q.id = row.id then markClaimed reseller buyer now q else q)) =
        l1 ++ markClaimed reseller buyer now row :: l2 := by
      rw [hsplit, List.map_append, List.map_cons]
      congr 1
      · exact List.map_congr_left (fun q hq => if_neg (hne1 q hq)) |>.trans (List.map_id _)
      · congr 1
        · rw [if_pos rfl]
        · exact List.map_congr_left (fun q hq => if_neg (hne2 q hq)) |>.trans (List.map_id _)
    rw [hrows]

/-- A claim never changes the list of values in the store. -/
theorem claim_one_values (s : Store) (program duration : Str) (reseller buyer : Int)
    (now : Nat) :
    (claim_one s program duration reseller buyer now).store.values = s.values := by
  unfold claim_one
  cases s.rows.find? (isUnclaimedIn program duration) with
  | none => rfl
  | some row =>
    simp only [Store.values, List.map_map]
    exact List.map_congr_left (fun q _ => by
      by_cases h : q.id = row.id <;> simp [h, markClaimed])

/-- A claim never changes the list of row ids. -/
theorem claim_one_ids (s : Store) (program duration : Str) (reseller buyer : Int)
    (now : Nat) :
    (claim_one s program duration reseller buyer now).store.rows.map (·.id) =
      s.rows.map (·.id) := by
  unfold claim_one
  cases s.rows.find? (isUnclaimedIn program duration) with
  | none => rfl
  | some row =>
    simp only [List.map_map]
    exact List.map_congr_left (fun q _ => by
      by_cases h : q.id = row.id <;> simp [h, markClaimed])

/-- A claim never changes the AUTOINCREMENT counter. -/
theorem claim_one_nextId (s : Store) (program duration : Str) (reseller buyer : Int)
    (now : Nat) :
    (claim_one s program duration reseller buyer now).store.nextId = s.nextId := by
  unfold claim_one
  cases s.rows.find? (isUnclaimedIn program duration) with
  | none => rfl
  | some row => rfl

/-- An empty pool makes the claim a no-op returning none. -/
theorem claim_one_of_count_zero (s : Store) (program duration : Str)
    (reseller buyer : Int) (now : Nat)
    (h : get_stock_count s program duration = 0) :
    claim_one s program duration reseller buyer now = ⟨s, none⟩ := by
  have hnil : s.rows.filter (isUnclaimedIn program duration) = [] :=
    List.length_eq_zero.1 h
  have hfind : s.rows.find? (isUnclaimedIn program duration) = none := by
    rw [List.find?_eq_none]
    intro x hx
    exact (List.filter_eq_nil_iff.1 hnil) x hx
  simp [claim_one, hfind]

/-- Reading the WHERE clause back as a proposition. -/
theorem isUnclaimedIn_eq_true (program duration : Str) (r : KeyRow) :
    isUnclaimedIn program duration r = true ↔
      r.program = program ∧ r.duration = duration ∧ r.used_at = none := by
  simp [isUnclaimedIn, and_assoc]

/-- Everything a successful claim guarantees: the returned value belongs to
a previously unclaimed row of the pool, the unclaimed count drops by one,
the claimed row is recorded, claimed rows survive untouched, and every row
still unclaimed afterwards was already there unclaimed before. -/
theorem claim_one_success (s : Store) (hid : (s.rows.map (·.id)).Nodup)
    (program duration : Str) (reseller buyer : Int) (now : Nat)
    (h : 0 < get_stock_count s program duration) :
    ∃ r ∈ s.rows, isUnclaimedIn program duration r = true ∧
      (claim_one s program duration reseller buyer now).result = some r.value ∧
      get_stock_count (claim_one s program duration reseller buyer now).store
          program duration = get_stock_count s program duration - 1 ∧
      markClaimed reseller buyer now r ∈
        (claim_one s program duration reseller buyer now).store.rows ∧
      (∀ q ∈ s.rows, q.used_at ≠ none →
        q ∈ (claim_one s program duration reseller buyer now).store.rows) ∧
      (∀ q ∈ (claim_one s program duration reseller buyer now).store.rows,
        isUnclaimedIn program duration q = true → q ∈ s.rows) := by
  rcases claim_one_shape s hid program duration reseller buyer now with ⟨h0, _⟩ | hsucc
  · omega
  obtain ⟨l1, r, l2, hsplit, hl1, hr, heq⟩ := hsucc
  have hl1nil : l1.filter (isUnclaimedIn program duration) = [] :=
    List.filter_eq_nil_iff.2 (fun q hq => by simp [hl1 q hq])
  refine ⟨r, by rw [hsplit]; simp, hr, by rw [heq], ?_, ?_, ?_, ?_⟩
  · rw [heq]
    unfold get_stock_count
    rw [hsplit]
    simp [List.filter_append, hl1nil, hr]
  · rw [heq]
    simp
  · intro q hq hqc
    rw [heq]
    rw [hsplit] at hq
    simp only [List.mem_append, List.mem_cons] at hq ⊢
    rcases hq with hq | hq | hq
    · exact Or.inl hq
    · exfalso
      exact hqc (hq ▸ ((isUnclaimedIn_eq_true program duration r).1 hr).2.2)
    · exact Or.inr (Or.inr hq)
  · intro q hq hqu
    rw [heq] at hq
    rw [hsplit]
    simp only [List.mem_append, List.mem_cons] at hq ⊢
    rcases hq with hq | hq | hq
    · exact Or.inl hq
    · exfalso
      rw [hq] at hqu
      simp at hqu
    · exact Or.inr (Or.inr hq)

/-- A small store used to instantiate theorems: two unclaimed keys A and B
in pool (t, d). -/
def demoStore : Store :=
  ⟨[⟨1, ['t'], ['d'], ['A'], none, none, none⟩,
    ⟨2, ['t'], ['d'], ['B'], none, none, none⟩], 3⟩

/-- A store holding one claimed key and one unclaimed key in pool (t, d). -/
def demoClaimedStore : Store :=
  ⟨[⟨1, ['t'], ['d'], ['A'], some 5, some 6, some 42⟩,
    ⟨2, ['t'], ['d'], ['B'], none, none, none⟩], 3⟩

/-- The store holds a permanently claimed row carrying this value. -/
def hasClaimedValue (s : Store) (v : Str) : Prop :=
  ∃ q ∈ s.rows, q.value = v ∧ q.used_at ≠ none

/-- Each call either produces a key or none; together they partition. -/
theorem filterMap_id_length_add {α : Type} (outs : List (Option α)) :
    (outs.filterMap id).length + (outs.filter (·.isNone)).length = outs.length := by
  induction outs with
  | nil => simp
  | cons o rest ih =>
    cases o <;> simp [List.filterMap_cons, ih] <;> omega

/-- The serialized batch of claims behaves like taking keys one at a time:
answers line up with requests, exactly min(N, M) of them produce a key, the
pool shrinks accordingly, all produced values are distinct unclaimed pool
values of the initial store, and a value attached to an already claimed
row is never produced. -/
theorem runClaims_spec (program duration : Str) (reqs : List (Int × Int × Nat)) :
    ∀ (s : Store), (s.rows.map (·.id)).Nodup → s.values.Nodup →
      (runClaims s program duration reqs).2.length = reqs.length ∧
      ((runClaims s program duration reqs).2.filterMap id).length =
        min reqs.length (get_stock_count s program duration) ∧
      get_stock_count (runClaims s program duration reqs).1 program duration =
        get_stock_count s program duration - reqs.length ∧
      ((runClaims s program duration reqs).2.filterMap id).Nodup ∧
      (∀ v ∈ (runClaims s program duration reqs).2.filterMap id,
        ∃ r ∈ s.rows, isUnclaimedIn program duration r = true ∧ r.value = v) ∧
      (∀ v, hasClaimedValue s v → some v ∉ (runClaims s program duration reqs).2) := by
  induction reqs with
  | nil =>
    intro s hid hval
    simp [runClaims]
  | cons req rest ih =>
    obtain ⟨a, b, t⟩ := req
    intro s hid hval
    have hrun : runClaims s program duration ((a, b, t) :: rest) =
        ((runClaims (claim_one s program duration a b t).store program duration rest).1,
         (claim_one s program duration a b t).result ::
           (runClaims (claim_one s program duration a b t).store program duration rest).2) :=
      rfl
    by_cases hM : get_stock_count s program duration = 0
    · have hc := claim_one_of_count_zero s program duration a b t hM
      rw [hrun, hc]
      obtain ⟨ihlen, ihsomes, ihcount, ihnd, ihsrc, ihexcl⟩ := ih s hid hval
      refine ⟨by simp [ihlen], ?_, ?_, ?_, ?_, ?_⟩
      · simp only [List.filterMap_cons]
        simp [ihsomes, hM]
      · simpa [hM] using ihcount.trans (by omega)
      · simpa using ihnd
      · intro v hv
        simp only [List.filterMap_cons] at hv
        exact ihsrc v (by simpa using hv)
      · intro v hv
        simp only [List.mem_cons]
        push_neg
        exact ⟨by simp, ihexcl v hv⟩
    · have hpos : 0 < get_stock_count s program duration := Nat.pos_of_ne_zero hM
      obtain ⟨r, hrmem, hru, hres, hcount, hmark, hpres, hsrcback⟩ :=
        claim_one_success s hid program duration a b t hpos
      have hid2 : ((claim_one s program duration a b t).store.rows.map (·.id)).Nodup := by
        rw [claim_one_ids]; exact hid
      have hval2 : (claim_one s program duration a b t).store.values.Nodup := by
        rw [claim_one_values]; exact hval
      obtain ⟨ihlen, ihsomes, ihcount, ihnd, ihsrc, ihexcl⟩ :=
        ih (claim_one s program duration a b t).store hid2 hval2
      rw [hrun, hres]
      have hclaimed2 : hasClaimedValue (claim_one s program duration a b t).store r.value :=
        ⟨markClaimed a b t r, hmark, by simp [markClaimed], by simp [markClaimed]⟩
      have hnotin : some r.value ∉
          (runClaims (claim_one s program duration a b t).store program duration rest).2 :=
        ihexcl r.value hclaimed2
      refine ⟨by simp [ihlen], ?_, ?_, ?_, ?_, ?_⟩
      · simp only [List.filterMap_cons, id_eq, List.length_cons]
        rw [ihsomes, hcount]
        omega
      · rw [ihcount, hcount]
        simp only [List.length_cons]
        omega
      · simp only [List.filterMap_cons, id_eq]
        rw [List.nodup_cons]
        refine ⟨fun hmem => hnotin ?_, ihnd⟩
        obtain ⟨o, ho, hoe⟩ := List.mem_filterMap.1 hmem
        rw [id_eq] at hoe
        exact hoe ▸ ho
      · intro v hv
        simp only [List.filterMap_cons, id_eq, List.mem_cons] at hv
        rcases hv with hv | hv
        · exact ⟨r, hrmem, hru, hv.symm⟩
        · obtain ⟨r2, hr2mem, hr2u, hr2v⟩ := ihsrc v hv
          exact ⟨r2, hsrcback r2 hr2mem hr2u, hr2u, hr2v⟩
      · intro v hv
        simp only [List.mem_cons]
        push_neg
        constructor
        · intro hcontra
          obtain ⟨q, hqmem, hqv, hqc⟩ := hv
          have hvv : v = r.value := by simpa using hcontra
          have : q = r :=
            List.inj_on_of_nodup_map hval hqmem hrmem (by rw [hqv, hvv])
          rw [this] at hqc
          exact hqc ((isUnclaimedIn_eq_true program duration r).1 hru).2.2
        · obtain ⟨q, hqmem, hqv, hqc⟩ := hv
          exact ihexcl v ⟨q, hpres q hqmem hqc, hqv, hqc⟩

/-! ### Claim theorems for the allocation path -/

/-- C1: N concurrent allocate calls against one pool holding M unclaimed
keys — serialized by the BEGIN IMMEDIATE transaction of pop_key, so every
concurrent execution coincides with the sequential run modeled by
runClaims, which is the read-candidate-then-mark-claimed sequence executing
as one unit per caller — produce exactly min(N, M) successes; each
successful caller receives a distinct key value drawn from the unclaimed
keys of the pool, no value is handed to two callers, the remaining
N - min(N, M) calls return NoStock, and the unclaimed count drops by
min(N, M). -/
theorem c1_exactly_once_claims (s : Store) (program duration : Str)
    (reqs : List (Int × Int × Nat))
    (hid : (s.rows.map (·.id)).Nodup) (hval : s.values.Nodup) :
    ((runClaims s program duration reqs).2.filterMap id).length =
      min reqs.length (get_stock_count s program duration) ∧
    ((runClaims s program duration reqs).2.filterMap id).Nodup ∧
    (∀ v ∈ (runClaims s program duration reqs).2.filterMap id,
      ∃ r ∈ s.rows, isUnclaimedIn program duration r = true ∧ r.value = v) ∧
    ((runClaims s program duration reqs).2.filter (·.isNone)).length =
      reqs.length - min reqs.length (get_stock_count s program duration) ∧
    get_stock_count (runClaims s program duration reqs).1 program duration =
      get_stock_count s program duration -
        min reqs.length (get_stock_count s program duration) := by
  obtain ⟨hlen, hsomes, hcount, hnd, hsrc, _⟩ :=
    runClaims_spec program duration reqs s hid hval
  have hpart := filterMap_id_length_add (runClaims s program duration reqs).2
  refine ⟨hsomes, hnd, hsrc, by omega, by omega⟩

/-- Witness for C1: three requests against the two-key pool of demoStore
claim both keys exactly once and answer NoStock to the third. -/
theorem c1_exactly_once_claims_witness :
    ((demoStore.rows.map (·.id)).Nodup ∧ demoStore.values.Nodup) ∧
    (((runClaims demoStore ['t'] ['d'] [(1, 2, 3), (4, 5, 6), (7, 8, 9)]).2.filterMap
        id).length =
      min [(1, 2, 3), (4, 5, 6), (7, 8, 9)].length (get_stock_count demoStore ['t'] ['d']) ∧
    ((runClaims demoStore ['t'] ['d'] [(1, 2, 3), (4, 5, 6), (7, 8, 9)]).2.filterMap
        id).Nodup ∧
    (∀ v ∈ (runClaims demoStore ['t'] ['d'] [(1, 2, 3), (4, 5, 6), (7, 8, 9)]).2.filterMap id,
      ∃ r ∈ demoStore.rows, isUnclaimedIn ['t'] ['d'] r = true ∧ r.value = v) ∧
    ((runClaims demoStore ['t'] ['d'] [(1, 2, 3), (4, 5, 6), (7, 8, 9)]).2.filter
        (·.isNone)).length =
      [(1, 2, 3), (4, 5, 6), (7, 8, 9)].length -
        min [(1, 2, 3), (4, 5, 6), (7, 8, 9)].length (get_stock_count demoStore ['t'] ['d']) ∧
    get_stock_count (runClaims demoStore ['t'] ['d'] [(1, 2, 3), (4, 5, 6), (7, 8, 9)]).1
        ['t'] ['d'] =
      get_stock_count demoStore ['t'] ['d'] -
        min [(1, 2, 3), (4, 5, 6), (7, 8, 9)].length (get_stock_count demoStore ['t'] ['d'])) :=
  ⟨⟨by decide, by decide⟩,
   c1_exactly_once_claims demoStore ['t'] ['d'] [(1, 2, 3), (4, 5, 6), (7, 8, 9)]
     (by decide) (by decide)⟩

/-- C4: on a pool holding at least one unclaimed key, claim_one splits the
row list at the earliest-inserted unclaimed row of the pool (every earlier
row fails the pool-or-unclaimed test), returns exactly the prior value of
that row, and rewrites the store so that exactly that row is marked claimed
with the given allocator, recipient and current time, all other rows and
the id counter untouched. -/
theorem c4_claim_first_inserted (s : Store) (hid : (s.rows.map (·.id)).Nodup)
    (program duration : Str) (reseller buyer : Int) (now : Nat)
    (h : 0 < get_stock_count s program duration) :
    ∃ l1 r l2, s.rows = l1 ++ r :: l2 ∧
      (∀ q ∈ l1, isUnclaimedIn program duration q = false) ∧
      isUnclaimedIn program duration r = true ∧
      claim_one s program duration reseller buyer now =
        ⟨⟨l1 ++ markClaimed reseller buyer now r :: l2, s.nextId⟩, some r.value⟩ := by
  rcases claim_one_shape s hid program duration reseller buyer now with ⟨h0, _⟩ | hsucc
  · omega
  · exact hsucc

/-- Witness for C4 on demoStore: the first-inserted key A is the one
claimed. -/
theorem c4_claim_first_inserted_witness :
    ((demoStore.rows.map (·.id)).Nodup ∧ 0 < get_stock_count demoStore ['t'] ['d']) ∧
    (∃ l1 r l2, demoStore.rows = l1 ++ r :: l2 ∧
      (∀ q ∈ l1, isUnclaimedIn ['t'] ['d'] q = false) ∧
      isUnclaimedIn ['t'] ['d'] r = true ∧
      claim_one demoStore ['t'] ['d'] 5 6 42 =
        ⟨⟨l1 ++ markClaimed 5 6 42 r :: l2, demoStore.nextId⟩, some r.value⟩) :=
  ⟨⟨by decide, by decide⟩,
   c4_claim_first_inserted demoStore (by decide) ['t'] ['d'] 5 6 42 (by decide)⟩

/-- C7: a claim against a pool with zero unclaimed keys returns none
(reported as NoStock) and leaves every key row exactly as it was, both at
the transaction level and through pop_key, whatever the mirror state. -/
theorem c7_empty_pool_no_mutation (s : Store) (program duration : Str)
    (reseller buyer : Int) (now : Nat) (file : Str) (mirrorRaises : Bool)
    (h : get_stock_count s program duration = 0) :
    claim_one s program duration reseller buyer now = ⟨s, none⟩ ∧
    pop_key s program duration reseller buyer now file mirrorRaises = ⟨s, file, none⟩ := by
  have h1 := claim_one_of_count_zero s program duration reseller buyer now h
  exact ⟨h1, by simp [pop_key, h1]⟩

/-- Witness for C7: pool (x, d) of demoStore is empty. -/
theorem c7_empty_pool_no_mutation_witness :
    get_stock_count demoStore ['x'] ['d'] = 0 ∧
    (claim_one demoStore ['x'] ['d'] 5 6 42 = ⟨demoStore, none⟩ ∧
     pop_key demoStore ['x'] ['d'] 5 6 42 ['A', '\n'] false =
       ⟨demoStore, ['A', '\n'], none⟩) :=
  ⟨by decide,
   c7_empty_pool_no_mutation demoStore ['x'] ['d'] 5 6 42 ['A', '\n'] false (by decide)⟩

/-- C8: the store state and the value handed to the caller by pop_key are
exactly those of the committed claim transaction, for every mirror-file
content (including one with no matching line) and also when the mirror
removal raises: a mirror failure never rolls back the claim and never
withholds the claimed value. -/
theorem c8_mirror_failure_never_blocks (s : Store) (program duration : Str)
    (reseller buyer : Int) (now : Nat) (file : Str) (mirrorRaises : Bool) :
    (pop_key s program duration reseller buyer now file mirrorRaises).store =
      (claim_one s program duration reseller buyer now).store ∧
    (pop_key s program duration reseller buyer now file mirrorRaises).result =
      (claim_one s program duration reseller buyer now).result := by
  cases h : claim_one s program duration reseller buyer now with
  | mk st res => cases res <;> simp [pop_key, h]

/-! ### Lemmas about the import path -/

/-- An insert of a value already present anywhere in the table is a no-op
reporting failure. -/
theorem insert_key_of_mem (s : Store) (program duration value : Str)
    (h : value ∈ s.values) : insert_key s program duration value = (s, false) := by
  simp [insert_key, h]

/-- An insert of a fresh value appends one unclaimed row with the next id. -/
theorem insert_key_of_not_mem (s : Store) (program duration value : Str)
    (h : value ∉ s.values) :
    insert_key s program duration value =
      (⟨s.rows ++ [⟨s.nextId, program, duration, value, none, none, none⟩],
        s.nextId + 1⟩, true) := by
  simp [insert_key, h]

/-- The insert loop only ever appends rows: the new store is the old rows
plus a block of fresh unclaimed rows of this pool, whose values are the
reported added keys, a subsequence of the attempted tokens; each token
either adds or skips. -/
theorem importLoop_spec (program duration : Str) (ks : List Str) :
    ∀ s : Store, ∃ newRows : List KeyRow,
      (importLoop s program duration ks).1.rows = s.rows ++ newRows ∧
      newRows.map (·.value) = (importLoop s program duration ks).2.1 ∧
      (importLoop s program duration ks).2.1.Sublist ks ∧
      (∀ r ∈ newRows, r.program = program ∧ r.duration = duration ∧
        r.used_by = none ∧ r.used_for = none ∧ r.used_at = none) ∧
      (importLoop s program duration ks).2.2 +
        (importLoop s program duration ks).2.1.length = ks.length := by
  induction ks with
  | nil =>
    intro s
    exact ⟨[], by simp [importLoop], by simp [importLoop], by simp [importLoop],
      by simp, by simp [importLoop]⟩
  | cons k ks ih =>
    intro s
    by_cases hk : k ∈ s.values
    · have hins := insert_key_of_mem s program duration k hk
      have hunfold : importLoop s program duration (k :: ks) =
          ((importLoop s program duration ks).1,
           (importLoop s program duration ks).2.1,
           (importLoop s program duration ks).2.2 + 1) := by
        simp [importLoop, hins]
      obtain ⟨newRows, h1, h2, h3, h4, h5⟩ := ih s
      rw [hunfold]
      exact ⟨newRows, h1, h2, h3.cons k, h4, by simpa using by omega⟩
    · have hstep2 : (insert_key s program duration k).2 = true := by
        rw [insert_key_of_not_mem s program duration k hk]
      have hstep1 : (insert_key s program duration k).1 =
          ⟨s.rows ++ [⟨s.nextId, program, duration, k, none, none, none⟩],
           s.nextId + 1⟩ := by
        rw [insert_key_of_not_mem s program duration k hk]
      have hunfold : importLoop s program duration (k :: ks) =
          ((importLoop (insert_key s program duration k).1 program duration ks).1,
           k :: (importLoop (insert_key s program duration k).1 program duration ks).2.1,
           (importLoop (insert_key s program duration k).1 program duration ks).2.2) := by
        simp [importLoop, hstep2]
      obtain ⟨newRows, h1, h2, h3, h4, h5⟩ := ih (insert_key s program duration k).1
      rw [hunfold]
      refine ⟨⟨s.nextId, program, duration, k, none, none, none⟩ :: newRows,
        ?_, ?_, ?_, ?_, ?_⟩
      · rw [h1, hstep1]
        simp
      · simp [h2]
      · exact h3.cons₂ k
      · intro r hr
        rcases List.mem_cons.1 hr with hr | hr
        · simp [hr]
        · exact h4 r hr
      · simpa using by omega

/-- Values after the insert loop: the old values plus the added keys. -/
theorem importLoop_values (program duration : Str) (ks : List Str) (s : Store) :
    (importLoop s program duration ks).1.values =
      s.values ++ (importLoop s program duration ks).2.1 := by
  obtain ⟨newRows, h1, h2, _, _, _⟩ := importLoop_spec program duration ks s
  unfold Store.values
  rw [h1, List.map_append, h2]

/-- With batch-distinct tokens, the added keys are exactly the tokens not
yet in the store and the skip count is exactly the number of tokens
already present. -/
theorem importLoop_counts (program duration : Str) (ks : List Str) :
    ks.Nodup → ∀ s : Store,
      (importLoop s program duration ks).2.1 = ks.filter (fun k => k ∉ s.values) ∧
      (importLoop s program duration ks).2.2 =
        (ks.filter (fun k => k ∈ s.values)).length := by
  induction ks with
  | nil => intro _ s; simp [importLoop]
  | cons k ks ih =>
    intro hnd s
    have hknotin : k ∉ ks := (List.nodup_cons.1 hnd).1
    have hnd2 : ks.Nodup := (List.nodup_cons.1 hnd).2
    by_cases hk : k ∈ s.values
    · have hins := insert_key_of_mem s program duration k hk
      have hunfold : importLoop s program duration (k :: ks) =
          ((importLoop s program duration ks).1,
           (importLoop s program duration ks).2.1,
           (importLoop s program duration ks).2.2 + 1) := by
        simp [importLoop, hins]
      obtain ⟨ha, hs⟩ := ih hnd2 s
      rw [hunfold]
      constructor
      · simpa [hk] using ha
      · simpa [hk] using hs
    · have hstep2 : (insert_key s program duration k).2 = true := by
        rw [insert_key_of_not_mem s program duration k hk]
      have hunfold : importLoop s program duration (k :: ks) =
          ((importLoop (insert_key s program duration k).1 program duration ks).1,
           k :: (importLoop (insert_key s program duration k).1 program duration ks).2.1,
           (importLoop (insert_key s program duration k).1 program duration ks).2.2) := by
        simp [importLoop, hstep2]
      obtain ⟨ha, hs⟩ := ih hnd2 (insert_key s program duration k).1
      have hvals : (insert_key s program duration k).1.values = s.values ++ [k] := by
        rw [insert_key_of_not_mem s program duration k hk]
        simp [Store.values]
      have hfeq : ks.filter (fun x => x ∉ (insert_key s program duration k).1.values) =
          ks.filter (fun x => x ∉ s.values) := by
        apply List.filter_congr
        intro x hx
        have hxk : x ≠ k := fun hcontra => hknotin (hcontra ▸ hx)
        simp [hvals, hxk]
      have hfeq2 : ks.filter (fun x => x ∈ (insert_key s program duration k).1.values) =
          ks.filter (fun x => x ∈ s.values) := by
        apply List.filter_congr
        intro x hx
        have hxk : x ≠ k := fun hcontra => hknotin (hcontra ▸ hx)
        simp [hvals, hxk]
      rw [hunfold]
      constructor
      · simpa [hk] using ha.trans hfeq
      · simpa [hk] using hs.trans (congrArg List.length hfeq2)

/-- C6: the mirror file after an import is the old content plus exactly one
line for each value actually inserted (the new rows of the store), in their
original relative order (a subsequence of the candidate tokens), and is
untouched when nothing was inserted. -/
theorem c6_mirror_append_exact (s : Store) (program duration raw file : Str) :
    ∃ newRows : List KeyRow,
      (add_stock_via_text s program duration raw file).store.rows = s.rows ++ newRows ∧
      (add_stock_via_text s program duration raw file).file =
        file ++ ((newRows.map (·.value)).map mirrorLine).flatten ∧
      (newRows.map (·.value)).Sublist (tokenize_keys raw) ∧
      (add_stock_via_text s program duration raw file).added = newRows.length ∧
      ((add_stock_via_text s program duration raw file).added = 0 →
        (add_stock_via_text s program duration raw file).file = file) := by
  obtain ⟨newRows, h1, h2, h3, _, _⟩ := importLoop_spec program duration (tokenize_keys raw) s
  refine ⟨newRows, h1, ?_, h2 ▸ h3, ?_, ?_⟩
  · show (if (importLoop s program duration (tokenize_keys raw)).2.1.isEmpty then file
      else file ++ ((importLoop s program duration (tokenize_keys raw)).2.1.map
        mirrorLine).flatten) = _
    rw [← h2]
    by_cases hemp : newRows.map (·.value) = []
    · simp [hemp]
    · rw [if_neg (by simpa using hemp)]
  · show (importLoop s program duration (tokenize_keys raw)).2.1.length = _
    rw [← h2, List.length_map]
  · intro h0
    show (if (importLoop s program duration (tokenize_keys raw)).2.1.isEmpty then file
      else _) = file
    have : (importLoop s program duration (tokenize_keys raw)).2.1.length = 0 := h0
    rw [if_pos (by simpa [List.isEmpty_iff] using List.length_eq_zero.1 this)]

/-! ### Schema invariants along every operation -/

/-- One insert keeps ids distinct and bounded and values distinct. -/
theorem insert_key_WF (s : Store) (program duration value : Str) (h : s.WF) :
    (insert_key s program duration value).1.WF := by
  by_cases hv : value ∈ s.values
  · rw [insert_key_of_mem _ _ _ _ hv]
    exact h
  · rw [insert_key_of_not_mem _ _ _ _ hv]
    obtain ⟨hid, hval, hbound⟩ := h
    refine ⟨?_, ?_, ?_⟩
    · show (List.map (·.id)
        (s.rows ++ [⟨s.nextId, program, duration, value, none, none, none⟩])).Nodup
      simp only [List.map_append, List.map_cons, List.map_nil]
      rw [List.nodup_append]
      refine ⟨hid, List.nodup_singleton _, ?_⟩
      intro a ha hb
      obtain ⟨q, hq, hqa⟩ := List.mem_map.1 ha
      have ha2 : a = s.nextId := by simpa using hb
      have hlt := hbound q hq
      omega
    · show (List.map (·.value)
        (s.rows ++ [⟨s.nextId, program, duration, value, none, none, none⟩])).Nodup
      simp only [List.map_append, List.map_cons, List.map_nil]
      rw [List.nodup_append]
      refine ⟨hval, List.nodup_singleton _, ?_⟩
      intro a ha hb
      have ha2 : a = value := by simpa using hb
      exact hv (ha2 ▸ ha)
    · show ∀ r ∈ s.rows ++ [⟨s.nextId, program, duration, value, none, none, none⟩],
        r.id < s.nextId + 1
      intro r hr
      rcases List.mem_append.1 hr with hr | hr
      · have := hbound r hr
        omega
      · have hrid : r.id = s.nextId := by
          have hre : r = ⟨s.nextId, program, duration, value, none, none, none⟩ := by
            simpa using hr
          rw [hre]
        omega

/-- The store threaded through the insert loop. -/
theorem importLoop_store_cons (s : Store) (program duration : Str) (k : Str)
    (ks : List Str) :
    (importLoop s program duration (k :: ks)).1 =
      (importLoop (insert_key s program duration k).1 program duration ks).1 := by
  cases h : (insert_key s program duration k).2 <;> simp [importLoop, h]

/-- The whole insert loop keeps the schema invariants. -/
theorem importLoop_WF (program duration : Str) (ks : List Str) :
    ∀ s : Store, s.WF → (importLoop s program duration ks).1.WF := by
  induction ks with
  | nil => intro s h; simpa [importLoop] using h
  | cons k ks ih =>
    intro s h
    rw [importLoop_store_cons]
    exact ih _ (insert_key_WF s program duration k h)

/-- Ids stay bounded through a claim. -/
theorem claim_one_bound (s : Store) (program duration : Str) (reseller buyer : Int)
    (now : Nat) (hb : ∀ r ∈ s.rows, r.id < s.nextId) :
    ∀ r ∈ (claim_one s program duration reseller buyer now).store.rows,
      r.id < (claim_one s program duration reseller buyer now).store.nextId := by
  intro r hr
  rw [claim_one_nextId]
  unfold claim_one at hr
  cases hf : s.rows.find? (isUnclaimedIn program duration) with
  | none =>
    rw [hf] at hr
    exact hb r hr
  | some row =>
    rw [hf] at hr
    simp only at hr
    obtain ⟨q, hq, hfq⟩ := List.mem_map.1 hr
    by_cases hqi : q.id = row.id
    · rw [if_pos hqi] at hfq
      have : r.id = q.id := by rw [← hfq]; simp [markClaimed]
      rw [this]
      exact hb q hq
    · rw [if_neg hqi] at hfq
      exact hfq ▸ hb q hq

/-- Every operation of the system preserves the schema invariants. -/
theorem applyOp_WF (s : Store) (op : Op) (h : s.WF) : (applyOp s op).WF := by
  cases op with
  | importText program duration raw =>
    show (add_stock_via_text s program duration raw []).store.WF
    simp only [add_stock_via_text]
    exact importLoop_WF program duration (tokenize_keys raw) s h
  | claim program duration reseller buyer now =>
    obtain ⟨hid, hval, hbound⟩ := h
    show (claim_one s program duration reseller buyer now).store.WF
    exact ⟨by rw [claim_one_ids]; exact hid,
           by rw [claim_one_values]; exact hval,
           claim_one_bound s program duration reseller buyer now hbound⟩
  | clear program duration =>
    obtain ⟨hid, hval, hbound⟩ := h
    refine ⟨?_, ?_, ?_⟩
    · show (List.map (·.id)
        (s.rows.filter (fun r => !isUnclaimedIn program duration r))).Nodup
      exact ((List.filter_sublist s.rows).map (·.id)).nodup hid
    · show (List.map (·.value)
        (s.rows.filter (fun r => !isUnclaimedIn program duration r))).Nodup
      exact ((List.filter_sublist s.rows).map (·.value)).nodup
        (show (s.rows.map (·.value)).Nodup from hval)
    · show ∀ r ∈ s.rows.filter (fun r => !isUnclaimedIn program duration r),
        r.id < s.nextId
      intro r hr
      exact hbound r (List.mem_of_mem_filter hr)

/-- The fresh table satisfies the schema invariants. -/
theorem empty_WF : Store.empty.WF := by
  refine ⟨by simp [Store.empty], by simp [Store.empty, Store.values], ?_⟩
  intro r hr
  simp [Store.empty] at hr

/-- Folding operations from a well-formed store stays well-formed. -/
theorem foldl_applyOp_WF (ops : List Op) :
    ∀ s : Store, s.WF → (ops.foldl applyOp s).WF := by
  induction ops with
  | nil => intro s h; simpa using h
  | cons op ops ih => intro s h; exact ih _ (applyOp_WF s op h)

/-- Every reachable store state satisfies the schema invariants. -/
theorem reachable_WF (s : Store) (h : Reachable s) : s.WF := by
  obtain ⟨ops, rfl⟩ := h
  exact foldl_applyOp_WF ops Store.empty empty_WF

/-- C2: at every reachable store state no two key rows share the same
value, across all programs and durations; and the per-token insert used by
the import path is rejected as a duplicate exactly when the value is
already present anywhere in the store, succeeding otherwise. -/
theorem c2_global_value_uniqueness (s : Store) (h : Reachable s) :
    s.values.Nodup ∧
    ∀ program duration value,
      ((insert_key s program duration value).2 = false ↔ value ∈ s.values) := by
  refine ⟨(reachable_WF s h).2.1, ?_⟩
  intro program duration value
  by_cases hv : value ∈ s.values
  · rw [insert_key_of_mem _ _ _ _ hv]
    simpa using hv
  · rw [insert_key_of_not_mem _ _ _ _ hv]
    simpa using hv

/-- Witness for C2 on the state reached by one import holding a repeated
token. -/
theorem c2_global_value_uniqueness_witness :
    Reachable ([Op.importText ['t'] ['d'] ['A', ' ', 'A', ' ', 'B']].foldl
      applyOp Store.empty) ∧
    (([Op.importText ['t'] ['d'] ['A', ' ', 'A', ' ', 'B']].foldl
        applyOp Store.empty).values.Nodup ∧
     ((insert_key ([Op.importText ['t'] ['d'] ['A', ' ', 'A', ' ', 'B']].foldl
          applyOp Store.empty) ['t'] ['d'] ['A']).2 = false ↔
       ['A'] ∈ ([Op.importText ['t'] ['d'] ['A', ' ', 'A', ' ', 'B']].foldl
          applyOp Store.empty).values)) :=
  ⟨⟨[Op.importText ['t'] ['d'] ['A', ' ', 'A', ' ', 'B']], rfl⟩,
   (c2_global_value_uniqueness _
      ⟨[Op.importText ['t'] ['d'] ['A', ' ', 'A', ' ', 'B']], rfl⟩).1,
   (c2_global_value_uniqueness _
      ⟨[Op.importText ['t'] ['d'] ['A', ' ', 'A', ' ', 'B']], rfl⟩).2 ['t'] ['d'] ['A']⟩

/-- Once claimed, a row survives any single claim untouched. -/
theorem claim_one_preserves_claimed (s : Store) (hid : (s.rows.map (·.id)).Nodup)
    (program duration : Str) (reseller buyer : Int) (now : Nat) :
    ∀ q ∈ s.rows, q.used_at ≠ none →
      q ∈ (claim_one s program duration reseller buyer now).store.rows := by
  by_cases h0 : get_stock_count s program duration = 0
  · rw [claim_one_of_count_zero _ _ _ _ _ _ h0]
    exact fun q hq _ => hq
  · obtain ⟨r, _, _, _, _, _, hpres, _⟩ :=
      claim_one_success s hid program duration reseller buyer now (Nat.pos_of_ne_zero h0)
    exact hpres

/-- C3: a claimed row (used_at set) is permanent: every operation of the
system keeps the row with all its fields intact, it is never counted as
unclaimed, a later claim never returns its value, and the clear command
deletes only rows whose used_at is null. -/
theorem c3_claimed_is_permanent (s : Store)
    (hid : (s.rows.map (·.id)).Nodup) (hval : s.values.Nodup)
    (r : KeyRow) (hr : r ∈ s.rows) (t : Nat) (ht : r.used_at = some t) :
    (∀ op : Op, r ∈ (applyOp s op).rows) ∧
    (∀ program duration, isUnclaimedIn program duration r = false) ∧
    (∀ (program duration : Str) (reseller buyer : Int) (now : Nat),
      (claim_one s program duration reseller buyer now).result ≠ some r.value) ∧
    (∀ program duration, ∀ q ∈ s.rows,
      q ∉ (clear_stock s program duration).store.rows → q.used_at = none) := by
  have hnotnone : r.used_at ≠ none := by simp [ht]
  refine ⟨?_, ?_, ?_, ?_⟩
  · intro op
    cases op with
    | importText program duration raw =>
      show r ∈ (add_stock_via_text s program duration raw []).store.rows
      obtain ⟨newRows, h1, _, _, _, _⟩ :=
        importLoop_spec program duration (tokenize_keys raw) s
      show r ∈ (importLoop s program duration (tokenize_keys raw)).1.rows
      rw [h1]
      exact List.mem_append_left _ hr
    | claim program duration reseller buyer now =>
      exact claim_one_preserves_claimed s hid program duration reseller buyer now
        r hr hnotnone
    | clear program duration =>
      show r ∈ s.rows.filter (fun q => !isUnclaimedIn program duration q)
      exact List.mem_filter.2 ⟨hr, by simp [isUnclaimedIn, ht]⟩
  · intro program duration
    simp [isUnclaimedIn, ht]
  · intro program duration reseller buyer now hcontra
    by_cases h0 : get_stock_count s program duration = 0
    · rw [claim_one_of_count_zero _ _ _ _ _ _ h0] at hcontra
      simp at hcontra
    · obtain ⟨r2, hr2mem, hr2u, hres, _⟩ :=
        claim_one_success s hid program duration reseller buyer now
          (Nat.pos_of_ne_zero h0)
      rw [hres] at hcontra
      have hvv : r2.value = r.value := by simpa using hcontra
      have hrr : r2 = r :=
        List.inj_on_of_nodup_map (show ((s.rows.map (·.value)).Nodup) from hval)
          hr2mem hr hvv
      have : r2.used_at = none := ((isUnclaimedIn_eq_true program duration r2).1 hr2u).2.2
      rw [hrr, ht] at this
      exact Option.noConfusion this
  · intro program duration q hq hqnot
    by_contra hne
    apply hqnot
    show q ∈ s.rows.filter (fun x => !isUnclaimedIn program duration x)
    exact List.mem_filter.2 ⟨hq, by simp [isUnclaimedIn, hne]⟩

/-- Witness for C3 at the claimed row of demoClaimedStore. -/
theorem c3_claimed_is_permanent_witness :
    (((demoClaimedStore.rows.map (·.id)).Nodup ∧ demoClaimedStore.values.Nodup) ∧
      (⟨1, ['t'], ['d'], ['A'], some 5, some 6, some 42⟩ : KeyRow) ∈
        demoClaimedStore.rows ∧
      (⟨1, ['t'], ['d'], ['A'], some 5, some 6, some 42⟩ : KeyRow).used_at = some 42) ∧
    ((∀ op : Op, (⟨1, ['t'], ['d'], ['A'], some 5, some 6, some 42⟩ : KeyRow) ∈
        (applyOp demoClaimedStore op).rows) ∧
     (∀ program duration, isUnclaimedIn program duration
        ⟨1, ['t'], ['d'], ['A'], some 5, some 6, some 42⟩ = false) ∧
     (∀ (program duration : Str) (reseller buyer : Int) (now : Nat),
        (claim_one demoClaimedStore program duration reseller buyer now).result ≠
          some (⟨1, ['t'], ['d'], ['A'], some 5, some 6, some 42⟩ : KeyRow).value) ∧
     (∀ program duration, ∀ q ∈ demoClaimedStore.rows,
        q ∉ (clear_stock demoClaimedStore program duration).store.rows →
          q.used_at = none)) :=
  ⟨⟨⟨by decide, by decide⟩, by decide, by decide⟩,
   c3_claimed_is_permanent demoClaimedStore (by decide) (by decide)
     ⟨1, ['t'], ['d'], ['A'], some 5, some 6, some 42⟩ (by decide) 42 (by decide)⟩

/-! ### Python string lemmas: strip -/

theorem mem_of_mem_pyLStrip {c : Char} {s : Str} (h : c ∈ pyLStrip s) : c ∈ s :=
  (List.dropWhile_sublist _).subset h

theorem mem_of_mem_pyRStrip {c : Char} {s : Str} (h : c ∈ pyRStrip s) : c ∈ s := by
  unfold pyRStrip at h
  have h2 : c ∈ s.reverse.dropWhile isPyWS := List.mem_reverse.1 h
  exact List.mem_reverse.1 ((List.dropWhile_sublist _).subset h2)

theorem mem_of_mem_pyStrip {c : Char} {s : Str} (h : c ∈ pyStrip s) : c ∈ s :=
  mem_of_mem_pyLStrip (mem_of_mem_pyRStrip h)

theorem pyLStrip_cons_of_neg {c : Char} {t : Str} (h : isPyWS c = false) :
    pyLStrip (c :: t) = c :: t := by
  simp [pyLStrip, List.dropWhile_cons, h]

theorem pyRStrip_append_last {s : Str} {c : Char} (h : isPyWS c = false) :
    pyRStrip (s ++ [c]) = s ++ [c] := by
  unfold pyRStrip
  rw [List.reverse_append]
  simp [List.dropWhile_cons, h]

theorem rstrip_fixed_last {l : Str} (hne : l ≠ []) (hfix : pyRStrip l = l) :
    ∃ l2 c, l = l2 ++ [c] ∧ isPyWS c = false := by
  rcases List.eq_nil_or_concat l with rfl | ⟨l2, c, hl⟩
  · exact absurd rfl hne
  · rw [List.concat_eq_append] at hl
    subst hl
    refine ⟨l2, c, rfl, ?_⟩
    by_contra hws
    have hws2 : isPyWS c = true := by simpa using hws
    have hlen : (pyRStrip (l2 ++ [c])).length ≤ l2.length := by
      unfold pyRStrip
      rw [List.reverse_append]
      simp only [List.reverse_cons, List.reverse_nil, List.nil_append,
        List.singleton_append, List.dropWhile_cons, hws2, if_true]
      calc (l2.reverse.dropWhile isPyWS).reverse.length
          = (l2.reverse.dropWhile isPyWS).length := List.length_reverse _
        _ ≤ l2.reverse.length := (List.dropWhile_sublist _).length_le
        _ = l2.length := List.length_reverse _
    rw [hfix] at hlen
    simp at hlen

theorem lstrip_fixed_head {u : Str} (hfix : pyLStrip u = u) (hne : u ≠ []) :
    ∃ c t, u = c :: t ∧ isPyWS c = false := by
  cases u with
  | nil => exact absurd rfl hne
  | cons c t =>
    refine ⟨c, t, rfl, ?_⟩
    by_contra hws
    have hws2 : isPyWS c = true := by simpa using hws
    have : pyLStrip (c :: t) = t.dropWhile isPyWS := by
      simp [pyLStrip, List.dropWhile_cons, hws2]
    rw [hfix] at this
    have hlen : (t.dropWhile isPyWS).length ≤ t.length :=
      (List.dropWhile_sublist _).length_le
    rw [← this] at hlen
    simp at hlen

theorem dropWhile_idem {α : Type} (p : α → Bool) (l : List α) :
    (l.dropWhile p).dropWhile p = l.dropWhile p := by
  induction l with
  | nil => rfl
  | cons c t ih =>
    by_cases h : p c
    · simp [List.dropWhile_cons, h, ih]
    · simp [List.dropWhile_cons, h]

theorem pyLStrip_idem (s : Str) : pyLStrip (pyLStrip s) = pyLStrip s :=
  dropWhile_idem isPyWS s

theorem pyRStrip_idem (s : Str) : pyRStrip (pyRStrip s) = pyRStrip s := by
  unfold pyRStrip
  rw [List.reverse_reverse, dropWhile_idem]

theorem pyRStrip_append_of_fixed {a J : Str} (hJ : pyRStrip J = J) (hne : J ≠ []) :
    pyRStrip (a ++ J) = a ++ J := by
  obtain ⟨j2, c, hj, hc⟩ := rstrip_fixed_last hne hJ
  subst hj
  rw [← List.append_assoc]
  exact pyRStrip_append_last hc

theorem pyLStrip_of_rstrip_of_lstrip_fixed {u : Str} (hfix : pyLStrip u = u) :
    pyLStrip (pyRStrip u) = pyRStrip u := by
  by_cases hne : pyRStrip u = []
  · rw [hne]
    rfl
  · have hsplit : u = pyRStrip u ++ (u.reverse.takeWhile isPyWS).reverse := by
      conv_lhs => rw [← List.reverse_reverse u,
        ← List.takeWhile_append_dropWhile isPyWS u.reverse]
      rw [List.reverse_append]
      rfl
    obtain ⟨c, t, hct, hc⟩ : ∃ c t, pyRStrip u = c :: t ∧ isPyWS c = false := by
      cases hru : pyRStrip u with
      | nil => exact absurd hru hne
      | cons c t =>
        refine ⟨c, t, rfl, ?_⟩
        have hu : u = c :: (t ++ (u.reverse.takeWhile isPyWS).reverse) := by
          conv_lhs => rw [hsplit, hru]
          simp
        obtain ⟨c2, t2, hct2, hc2⟩ := lstrip_fixed_head hfix (by rw [hu]; simp)
        have hcc : c = c2 := by
          rw [hu] at hct2
          simpa using congrArg List.head? hct2
        rw [hcc]
        exact hc2
    rw [hct]
    exact pyLStrip_cons_of_neg hc

theorem pyStrip_idem (s : Str) : pyStrip (pyStrip s) = pyStrip s := by
  unfold pyStrip
  rw [pyLStrip_of_rstrip_of_lstrip_fixed (pyLStrip_idem s), pyRStrip_idem]

/-! ### Python string lemmas: splitlines -/

theorem dropLFHead_subset (s : Str) : ∀ c ∈ dropLFHead s, c ∈ s := by
  intro c hc
  unfold dropLFHead at hc
  split at hc
  · exact List.mem_of_mem_tail hc
  · exact hc

theorem splitlinesAux_no_break : ∀ cur cs : Str,
    (∀ c ∈ cur, isLineBreak c = false) →
    ∀ l ∈ splitlinesAux cur cs, ∀ c ∈ l, isLineBreak c = false := by
  intro cur cs
  induction cur, cs using splitlinesAux.induct with
  | case1 cur hemp =>
    intro hcur l hl
    simp [splitlinesAux, hemp] at hl
  | case2 cur hemp =>
    intro hcur l hl c hc
    simp only [splitlinesAux, if_neg hemp] at hl
    have hleq : l = cur.reverse := by simpa using hl
    exact hcur c (List.mem_reverse.1 (hleq ▸ hc))
  | case3 cur cs ih =>
    intro hcur l hl c hc
    simp only [splitlinesAux, if_pos rfl] at hl
    rcases List.mem_cons.1 hl with hleq | hl2
    · exact hcur c (List.mem_reverse.1 (hleq ▸ hc))
    · exact ih (by simp) l hl2 c hc
  | case4 cur c0 cs hcr hbr ih =>
    intro hcur l hl c hc
    simp only [splitlinesAux, if_neg hcr, if_pos hbr] at hl
    rcases List.mem_cons.1 hl with hleq | hl2
    · exact hcur c (List.mem_reverse.1 (hleq ▸ hc))
    · exact ih (by simp) l hl2 c hc
  | case5 cur c0 cs hcr hbr ih =>
    intro hcur l hl c hc
    simp only [splitlinesAux, if_neg hcr, if_neg hbr] at hl
    refine ih ?_ l hl c hc
    intro x hx
    rcases List.mem_cons.1 hx with rfl | hx2
    · simpa using hbr
    · exact hcur x hx2

theorem splitlinesAux_subset : ∀ cur cs : Str,
    ∀ l ∈ splitlinesAux cur cs, ∀ c ∈ l, c ∈ cur ∨ c ∈ cs := by
  intro cur cs
  induction cur, cs using splitlinesAux.induct with
  | case1 cur hemp =>
    intro l hl
    simp [splitlinesAux, hemp] at hl
  | case2 cur hemp =>
    intro l hl c hc
    simp only [splitlinesAux, if_neg hemp] at hl
    have hleq : l = cur.reverse := by simpa using hl
    exact Or.inl (List.mem_reverse.1 (hleq ▸ hc))
  | case3 cur cs ih =>
    intro l hl c hc
    simp only [splitlinesAux, if_pos rfl] at hl
    rcases List.mem_cons.1 hl with hleq | hl2
    · exact Or.inl (List.mem_reverse.1 (hleq ▸ hc))
    · rcases ih l hl2 c hc with hin | hin
      · simp at hin
      · exact Or.inr (List.mem_cons_of_mem _ (dropLFHead_subset cs c hin))
  | case4 cur c0 cs hcr hbr ih =>
    intro l hl c hc
    simp only [splitlinesAux, if_neg hcr, if_pos hbr] at hl
    rcases List.mem_cons.1 hl with hleq | hl2
    · exact Or.inl (List.mem_reverse.1 (hleq ▸ hc))
    · rcases ih l hl2 c hc with hin | hin
      · simp at hin
      · exact Or.inr (List.mem_cons_of_mem _ hin)
  | case5 cur c0 cs hcr hbr ih =>
    intro l hl c hc
    simp only [splitlinesAux, if_neg hcr, if_neg hbr] at hl
    rcases ih l hl c hc with hin | hin
    · rcases List.mem_cons.1 hin with rfl | hin2
      · exact Or.inr (List.mem_cons_self _ _)
      · exact Or.inl hin2
    · exact Or.inr (List.mem_cons_of_mem _ hin)

/-- Lines of a splitlines result contain no line-break character. -/
theorem pySplitlines_no_break (s : Str) :
    ∀ l ∈ pySplitlines s, ∀ c ∈ l, isLineBreak c = false :=
  splitlinesAux_no_break [] s (by simp)

/-- Characters of a splitlines result come from the input. -/
theorem pySplitlines_subset (s : Str) :
    ∀ l ∈ pySplitlines s, ∀ c ∈ l, c ∈ s := by
  intro l hl c hc
  rcases splitlinesAux_subset [] s l hl c hc with hin | hin
  · simp at hin
  · exact hin

/-- Consuming one break-free line followed by LF. -/
theorem splitlinesAux_append_line : ∀ a : Str,
    (∀ c ∈ a, isLineBreak c = false) →
    ∀ cur cs : Str, splitlinesAux cur (a ++ '\n' :: cs) =
      (cur.reverse ++ a) :: splitlinesAux [] cs := by
  intro a
  induction a with
  | nil =>
    intro _ cur cs
    simp only [List.nil_append, List.append_nil]
    have h1 : ¬ ('\n' : Char) = '\r' := by decide
    have h2 : isLineBreak '\n' = true := by decide
    simp [splitlinesAux, if_neg h1, if_pos h2]
  | cons c a ih =>
    intro ha cur cs
    have hc : isLineBreak c = false := ha c (List.mem_cons_self c a)
    have hcr : ¬ c = '\r' := by
      intro h
      rw [h] at hc
      simp [isLineBreak] at hc
    show splitlinesAux cur (c :: (a ++ '\n' :: cs)) = _
    simp only [splitlinesAux, if_neg hcr, hc, Bool.false_eq_true, if_neg, if_false]
    rw [ih (fun x hx => ha x (List.mem_cons_of_mem c hx)) (c :: cur) cs]
    simp

/-- Round trip: splitting the LF-joined break-free lines, with a final LF,
recovers the lines. -/
theorem pySplitlines_joinNL : ∀ ls : List Str, ls ≠ [] →
    (∀ l ∈ ls, ∀ c ∈ l, isLineBreak c = false) →
    pySplitlines (joinNL ls ++ ['\n']) = ls := by
  intro ls
  induction ls with
  | nil => intro h; exact absurd rfl h
  | cons l ls ih =>
    intro _ h
    cases ls with
    | nil =>
      show splitlinesAux [] (l ++ '\n' :: []) = [l]
      rw [splitlinesAux_append_line l (h l (List.mem_cons_self _ _)) [] []]
      simp [splitlinesAux]
    | cons l2 ls2 =>
      have hj : joinNL (l :: l2 :: ls2) = l ++ '\n' :: joinNL (l2 :: ls2) := rfl
      show splitlinesAux [] (joinNL (l :: l2 :: ls2) ++ ['\n']) = _
      rw [hj, List.append_assoc, List.cons_append,
        splitlinesAux_append_line l (h l (List.mem_cons_self _ _)) []
          (joinNL (l2 :: ls2) ++ ['\n'])]
      have hrec := ih (by simp) (fun x hx => h x (List.mem_cons_of_mem l hx))
      simp only [List.reverse_nil, List.nil_append]
      exact congrArg (List.cons l) hrec

/-! ### Mirror line removal -/

theorem removeFirstLine_false (target : Str) : ∀ ls : List Str,
    (removeFirstLine target ls).1 = false →
      (removeFirstLine target ls).2 = ls ∧ ∀ l ∈ ls, pyStrip l ≠ target := by
  intro ls
  induction ls with
  | nil => intro _; exact ⟨rfl, by simp⟩
  | cons l ls ih =>
    intro h
    by_cases hl : pyStrip l = target
    · simp [removeFirstLine, hl] at h
    · have hunfold : removeFirstLine target (l :: ls) =
          ((removeFirstLine target ls).1, l :: (removeFirstLine target ls).2) := by
        simp [removeFirstLine, hl]
      rw [hunfold] at h
      obtain ⟨h2, h3⟩ := ih h
      rw [hunfold]
      refine ⟨by simp [h2], ?_⟩
      intro x hx
      rcases List.mem_cons.1 hx with rfl | hx2
      · exact hl
      · exact h3 x hx2

theorem removeFirstLine_true (target : Str) : ∀ ls : List Str,
    (removeFirstLine target ls).1 = true →
      ∃ l1 lm l2, ls = l1 ++ lm :: l2 ∧ (∀ x ∈ l1, pyStrip x ≠ target) ∧
        pyStrip lm = target ∧ (removeFirstLine target ls).2 = l1 ++ l2 := by
  intro ls
  induction ls with
  | nil => intro h; simp [removeFirstLine] at h
  | cons l ls ih =>
    intro h
    by_cases hl : pyStrip l = target
    · exact ⟨[], l, ls, by simp, by simp, hl, by simp [removeFirstLine, hl]⟩
    · have hunfold : removeFirstLine target (l :: ls) =
          ((removeFirstLine target ls).1, l :: (removeFirstLine target ls).2) := by
        simp [removeFirstLine, hl]
      rw [hunfold] at h
      obtain ⟨l1, lm, l2, hsplit, hl1, hlm, hrest⟩ := ih h
      refine ⟨l :: l1, lm, l2, by simp [hsplit], ?_, hlm, by rw [hunfold]; simp [hrest]⟩
      intro x hx
      rcases List.mem_cons.1 hx with rfl | hx2
      · exact hl
      · exact hl1 x hx2

theorem joinNL_ne_nil (l : Str) (ls : List Str) (hl : l ≠ []) :
    joinNL (l :: ls) ≠ [] := by
  cases ls with
  | nil => exact hl
  | cons l2 ls2 => simp [joinNL]

theorem pyRStrip_joinNL : ∀ ls : List Str, ls ≠ [] →
    (∀ l ∈ ls, l ≠ [] ∧ pyRStrip l = l) →
    pyRStrip (joinNL ls) = joinNL ls := by
  intro ls
  induction ls with
  | nil => intro h; exact absurd rfl h
  | cons l ls ih =>
    intro _ h
    cases ls with
    | nil => exact (h l (List.mem_cons_self _ _)).2
    | cons l2 ls2 =>
      have hj : joinNL (l :: l2 :: ls2) = (l ++ ['\n']) ++ joinNL (l2 :: ls2) := by
        show l ++ '\n' :: joinNL (l2 :: ls2) = _
        simp
      rw [hj]
      exact pyRStrip_append_of_fixed
        (ih (by simp) (fun x hx => h x (List.mem_cons_of_mem l hx)))
        (joinNL_ne_nil l2 ls2 (h l2 (List.mem_cons_of_mem l (List.mem_cons_self _ _))).1)

/-- The reported removal flag of remove_key_from_txt is the flag of the
line scan. -/
theorem remove_key_from_txt_fst (content target : Str) :
    (remove_key_from_txt content target).1 =
      (removeFirstLine target (pySplitlines content)).1 := by
  unfold remove_key_from_txt
  cases h : (removeFirstLine target (pySplitlines content)).1 <;> simp [h]

/-- C9 (amended): the removal scans top-to-bottom and drops exactly the
first line whose stripped content equals the target, reports whether one
was removed, and rewrites only in that case; provided no line of the file
is empty or ends in whitespace, the rewritten file consists of exactly the
remaining lines unchanged (without that proviso the rewrite additionally
right-strips trailing whitespace and blank lines at the end of the file,
see the counterexample). -/
theorem c9_remove_first_matching_line (content target : Str)
    (hclean : ∀ l ∈ pySplitlines content, l ≠ [] ∧ pyRStrip l = l) :
    ((remove_key_from_txt content target).1 = true ↔
      ∃ l ∈ pySplitlines content, pyStrip l = target) ∧
    ((remove_key_from_txt content target).1 = false →
      (remove_key_from_txt content target).2 = content) ∧
    ((remove_key_from_txt content target).1 = true →
      ∃ l1 lm l2, pySplitlines content = l1 ++ lm :: l2 ∧
        (∀ x ∈ l1, pyStrip x ≠ target) ∧ pyStrip lm = target ∧
        pySplitlines (remove_key_from_txt content target).2 = l1 ++ l2) := by
  refine ⟨⟨?_, ?_⟩, ?_, ?_⟩
  · intro h
    rw [remove_key_from_txt_fst] at h
    obtain ⟨l1, lm, l2, hsplit, _, hlm, _⟩ := removeFirstLine_true target _ h
    exact ⟨lm, by rw [hsplit]; simp, hlm⟩
  · intro ⟨lm, hlmmem, hlm⟩
    rw [remove_key_from_txt_fst]
    by_contra hfalse
    have hf : (removeFirstLine target (pySplitlines content)).1 = false := by
      simpa using hfalse
    exact (removeFirstLine_false target _ hf).2 lm hlmmem hlm
  · intro h
    unfold remove_key_from_txt
    rw [remove_key_from_txt_fst] at h
    simp [h]
  · intro h
    rw [remove_key_from_txt_fst] at h
    obtain ⟨l1, lm, l2, hsplit, hl1, hlm, hrest⟩ := removeFirstLine_true target _ h
    refine ⟨l1, lm, l2, hsplit, hl1, hlm, ?_⟩
    have hres2 : (remove_key_from_txt content target).2 =
        pyRStrip (joinNL (removeFirstLine target (pySplitlines content)).2) ++
          (if (removeFirstLine target (pySplitlines content)).2.isEmpty then []
            else ['\n']) := by
      unfold remove_key_from_txt
      simp [h]
    rw [hres2, hrest]
    have hkept : ∀ x ∈ l1 ++ l2, x ∈ pySplitlines content := by
      intro x hx
      rw [hsplit]
      rcases List.mem_append.1 hx with hx | hx
      · exact List.mem_append_left _ hx
      · exact List.mem_append_right _ (List.mem_cons_of_mem _ hx)
    by_cases hemp : (l1 ++ l2 : List Str) = []
    · rw [hemp]
      simp [joinNL, pyRStrip, pySplitlines, splitlinesAux]
    · have hfix : pyRStrip (joinNL (l1 ++ l2)) = joinNL (l1 ++ l2) :=
        pyRStrip_joinNL (l1 ++ l2) hemp (fun x hx => hclean x (hkept x hx))
      rw [hfix, if_neg (by simpa [List.isEmpty_iff] using hemp)]
      exact pySplitlines_joinNL (l1 ++ l2) hemp
        (fun x hx => pySplitlines_no_break content x (hkept x hx))

/-- C9 counterexample: removing A from the file holding lines A and
B-space keeps the line scan result B-space, but the rewritten file holds
the line B: the trailing space of the other line is stripped by the
rewrite, so the claim that every other line is left unchanged fails. -/
theorem c9_counterexample :
    (remove_key_from_txt ['A', '\n', 'B', ' ', '\n'] ['A']).1 = true ∧
    (removeFirstLine ['A'] (pySplitlines ['A', '\n', 'B', ' ', '\n'])).2 = [['B', ' ']] ∧
    pySplitlines (remove_key_from_txt ['A', '\n', 'B', ' ', '\n'] ['A']).2 = [['B']] ∧
    ¬ pySplitlines (remove_key_from_txt ['A', '\n', 'B', ' ', '\n'] ['A']).2 =
      [['B', ' ']] := by
  refine ⟨?_, ?_, ?_, ?_⟩ <;>
    simp [remove_key_from_txt, removeFirstLine, pyStrip, pyLStrip, pyRStrip, isPyWS,
      joinNL, pySplitlines, splitlinesAux, dropLFHead, isLineBreak]

/-- Witness for the amended C9 on a clean two-line file. -/
theorem c9_remove_first_matching_line_witness :
    (∀ l ∈ pySplitlines ['A', '\n', 'B', '\n'], l ≠ [] ∧ pyRStrip l = l) ∧
    (((remove_key_from_txt ['A', '\n', 'B', '\n'] ['A']).1 = true ↔
       ∃ l ∈ pySplitlines ['A', '\n', 'B', '\n'], pyStrip l = ['A']) ∧
     ((remove_key_from_txt ['A', '\n', 'B', '\n'] ['A']).1 = false →
       (remove_key_from_txt ['A', '\n', 'B', '\n'] ['A']).2 = ['A', '\n', 'B', '\n']) ∧
     ((remove_key_from_txt ['A', '\n', 'B', '\n'] ['A']).1 = true →
       ∃ l1 lm l2, pySplitlines ['A', '\n', 'B', '\n'] = l1 ++ lm :: l2 ∧
         (∀ x ∈ l1, pyStrip x ≠ ['A']) ∧ pyStrip lm = ['A'] ∧
         pySplitlines (remove_key_from_txt ['A', '\n', 'B', '\n'] ['A']).2 =
           l1 ++ l2)) :=
  ⟨by simp [pySplitlines, splitlinesAux, dropLFHead, isLineBreak, pyRStrip, isPyWS],
   c9_remove_first_matching_line ['A', '\n', 'B', '\n'] ['A']
     (by simp [pySplitlines, splitlinesAux, dropLFHead, isLineBreak, pyRStrip, isPyWS])⟩

/-! ### The parsing rule of the import path -/

/-- The separator set named by the specification for the import parsing
rule: newline, comma, semicolon, tab, space. -/
def isSpecSep (c : Char) : Bool :=
  c = '\n' || c = ',' || c = ';' || c = '\t' || c = ' '

/-- Plain character-level splitting at every separator (empty pieces are
kept; with N separators it yields N+1 pieces). -/
def splitOnAux (p : Char → Bool) (cur : Str) : Str → List Str
  | [] => [cur.reverse]
  | c :: cs => if p c then cur.reverse :: splitOnAux p [] cs else splitOnAux p (c :: cur) cs

def splitCharsOn (p : Char → Bool) (s : Str) : List Str := splitOnAux p [] s

/-- The tokenizer exactly as the specification words it: split rawText on
any of the five separators, trim each token, discard empties, dedupe
keeping first occurrences.  Stated only for comparison with tokenize_keys,
which embeds the code. -/
def spec_tokenize (raw : Str) : List Str :=
  dedupeAux [] (((splitCharsOn isSpecSep raw).map pyStrip).filter (fun k => !k.isEmpty))

/-- The separators the code actually cuts at: the five named by the
specification plus every further line-break character recognised by
str.splitlines (CR, VT, FF, FS, GS, RS, NEL, LS, PS). -/
def isExtSep (c : Char) : Bool := isSpecSep c || isLineBreak c

/-- The amended tokenizer: the specification rule over the extended
separator set. -/
def ext_tokenize (raw : Str) : List Str :=
  dedupeAux [] (((splitCharsOn isExtSep raw).map pyStrip).filter (fun k => !k.isEmpty))

theorem normalizeSep_eq_lf_iff (c : Char) :
    normalizeSep c = '\n' ↔ isSpecSep c = true := by
  unfold normalizeSep
  split
  · rename_i h
    simp only [true_iff]
    simp [isSpecSep] at h ⊢
    tauto
  · rename_i h
    simp [isSpecSep] at h ⊢
    tauto

theorem normalizeSep_of_not_ext (c : Char) (h : isExtSep c = false) :
    normalizeSep c = c ∧ isLineBreak c = false ∧ ¬ c = '\r' := by
  simp [isExtSep, isSpecSep, isLineBreak] at h
  refine ⟨?_, ?_, ?_⟩
  · unfold normalizeSep
    rw [if_neg]
    simp
    tauto
  · simp [isLineBreak]
    tauto
  · tauto

theorem break_of_ext_not_cr (c : Char) (hext : isExtSep c = true) (hcr : ¬ c = '\r') :
    isLineBreak (normalizeSep c) = true ∧ ¬ normalizeSep c = '\r' := by
  by_cases hs : isSpecSep c = true
  · have hn : normalizeSep c = '\n' := (normalizeSep_eq_lf_iff c).2 hs
    rw [hn]
    exact ⟨by decide, by decide⟩
  · have hb : isLineBreak c = true := by
      simp [isExtSep, hs] at hext
      simpa [isLineBreak] using hext
    have hnc : normalizeSep c = c := by
      unfold normalizeSep
      rw [if_neg]
      simp [isSpecSep] at hs
      simp
      tauto
    rw [hnc]
    exact ⟨hb, hcr⟩

theorem filtered_base (cur : Str) :
    ((splitlinesAux cur (normalize_text [])).map pyStrip).filter (fun k => !k.isEmpty) =
    ((splitOnAux isExtSep cur []).map pyStrip).filter (fun k => !k.isEmpty) := by
  show ((splitlinesAux cur []).map pyStrip).filter _ =
    (([cur.reverse]).map pyStrip).filter _
  by_cases hemp : cur.isEmpty
  · have hnil : cur = [] := by simpa [List.isEmpty_iff] using hemp
    subst hnil
    simp [splitlinesAux, pyStrip, pyLStrip, pyRStrip]
  · simp only [splitlinesAux, if_neg hemp]

/-- The filtered, stripped pieces produced by splitlines after the
replace-normalization coincide with those produced by plain splitting on
the extended separator set: the only difference, the CRLF pairing, only
ever suppresses an empty piece. -/
theorem filtered_splitlines_eq_splitOn : ∀ n : Nat, ∀ cs : Str, cs.length ≤ n →
    ∀ cur : Str,
    ((splitlinesAux cur (normalize_text cs)).map pyStrip).filter (fun k => !k.isEmpty) =
    ((splitOnAux isExtSep cur cs).map pyStrip).filter (fun k => !k.isEmpty) := by
  intro n
  induction n with
  | zero =>
    intro cs hlen cur
    have hnil : cs = [] := List.length_eq_zero.1 (Nat.le_zero.1 hlen)
    subst hnil
    exact filtered_base cur
  | succ n ih =>
    intro cs hlen cur
    cases cs with
    | nil => exact filtered_base cur
    | cons c cs2 =>
      have hlen2 : cs2.length ≤ n := by
        simp only [List.length_cons] at hlen
        omega
      show ((splitlinesAux cur (normalizeSep c :: normalize_text cs2)).map
          pyStrip).filter _ = ((splitOnAux isExtSep cur (c :: cs2)).map pyStrip).filter _
      by_cases hext : isExtSep c = true
      · rw [show splitOnAux isExtSep cur (c :: cs2) =
            cur.reverse :: splitOnAux isExtSep [] cs2 from by simp [splitOnAux, hext]]
        by_cases hcr : c = '\r'
        · subst hcr
          rw [show normalizeSep '\r' = '\r' from rfl]
          rw [show splitlinesAux cur ('\r' :: normalize_text cs2) =
              cur.reverse :: splitlinesAux [] (dropLFHead (normalize_text cs2)) from by
            simp [splitlinesAux]]
          have htail : ((splitlinesAux [] (dropLFHead (normalize_text cs2))).map
              pyStrip).filter (fun k => !k.isEmpty) =
              ((splitOnAux isExtSep [] cs2).map pyStrip).filter (fun k => !k.isEmpty) := by
            cases cs2 with
            | nil =>
              show ((splitlinesAux [] (dropLFHead [])).map pyStrip).filter _ = _
              simp [dropLFHead, splitlinesAux, splitOnAux, pyStrip, pyLStrip, pyRStrip]
            | cons c2 cs3 =>
              have hlen3 : cs3.length ≤ n := by
                simp only [List.length_cons] at hlen
                omega
              by_cases hsp : isSpecSep c2 = true
              · have hn2 : normalizeSep c2 = '\n' := (normalizeSep_eq_lf_iff c2).2 hsp
                have hdrop : dropLFHead (normalize_text (c2 :: cs3)) =
                    normalize_text cs3 := by
                  show dropLFHead (normalizeSep c2 :: normalize_text cs3) = _
                  rw [hn2]
                  simp [dropLFHead]
                rw [hdrop]
                rw [show splitOnAux isExtSep [] (c2 :: cs3) =
                    [].reverse :: splitOnAux isExtSep [] cs3 from by
                  simp [splitOnAux, isExtSep, hsp]]
                rw [List.reverse_nil, List.map_cons, List.filter_cons]
                have hpe : (!(pyStrip ([] : Str)).isEmpty) = false := rfl
                rw [hpe]
                simp only [Bool.false_eq_true, if_false]
                exact ih cs3 hlen3 []
              · have hlf : ¬ normalizeSep c2 = '\n' := fun hcontra =>
                  hsp ((normalizeSep_eq_lf_iff c2).1 hcontra)
                have hdrop : dropLFHead (normalize_text (c2 :: cs3)) =
                    normalize_text (c2 :: cs3) := by
                  show dropLFHead (normalizeSep c2 :: normalize_text cs3) = _
                  simp [dropLFHead, hlf, normalize_text]
                rw [hdrop]
                exact ih (c2 :: cs3) hlen2 []
          rw [List.map_cons, List.filter_cons, List.map_cons, List.filter_cons, htail]
        · obtain ⟨hbr, hncr⟩ := break_of_ext_not_cr c hext hcr
          rw [show splitlinesAux cur (normalizeSep c :: normalize_text cs2) =
              cur.reverse :: splitlinesAux [] (normalize_text cs2) from by
            simp [splitlinesAux, hncr, hbr]]
          rw [List.map_cons, List.filter_cons, List.map_cons, List.filter_cons,
            ih cs2 hlen2 []]
      · obtain ⟨hnc, hnbr, hncr⟩ := normalizeSep_of_not_ext c (by simpa using hext)
        rw [show splitOnAux isExtSep cur (c :: cs2) =
            splitOnAux isExtSep (c :: cur) cs2 from by simp [splitOnAux, hext]]
        rw [hnc]
        rw [show splitlinesAux cur (c :: normalize_text cs2) =
            splitlinesAux (c :: cur) (normalize_text cs2) from by
          simp [splitlinesAux, hncr, hnbr]]
        exact ih cs2 hlen2 (c :: cur)

/-- The tokenizer of the code equals the specification-style rule over the
extended separator set. -/
theorem tokenize_keys_eq_ext (raw : Str) : tokenize_keys raw = ext_tokenize raw := by
  unfold tokenize_keys ext_tokenize
  congr 1
  exact filtered_splitlines_eq_splitOn raw.length raw (Nat.le_refl _) []

theorem dedupeAux_nodup : ∀ (ks seen : List Str),
    (dedupeAux seen ks).Nodup ∧ ∀ x ∈ dedupeAux seen ks, x ∉ seen := by
  intro ks
  induction ks with
  | nil => intro seen; simp [dedupeAux]
  | cons k ks ih =>
    intro seen
    by_cases hk : k ∈ seen
    · simpa [dedupeAux, hk] using ih seen
    · have hunfold : dedupeAux seen (k :: ks) = k :: dedupeAux (k :: seen) ks := by
        simp [dedupeAux, hk]
      obtain ⟨hnd, hnotin⟩ := ih (k :: seen)
      rw [hunfold]
      refine ⟨List.nodup_cons.2 ⟨?_, hnd⟩, ?_⟩
      · intro hmem
        exact hnotin k hmem (List.mem_cons_self _ _)
      · intro x hx
        rcases List.mem_cons.1 hx with rfl | hx2
        · exact hk
        · intro hxs
          exact hnotin x hx2 (List.mem_cons_of_mem _ hxs)

theorem dedupeAux_subset : ∀ (ks seen : List Str), ∀ x ∈ dedupeAux seen ks, x ∈ ks := by
  intro ks
  induction ks with
  | nil => intro seen x hx; simp [dedupeAux] at hx
  | cons k ks ih =>
    intro seen x hx
    by_cases hk : k ∈ seen
    · rw [show dedupeAux seen (k :: ks) = dedupeAux seen ks from by simp [dedupeAux, hk]]
        at hx
      exact List.mem_cons_of_mem _ (ih seen x hx)
    · rw [show dedupeAux seen (k :: ks) = k :: dedupeAux (k :: seen) ks from by
        simp [dedupeAux, hk]] at hx
      rcases List.mem_cons.1 hx with rfl | hx2
      · exact List.mem_cons_self _ _
      · exact List.mem_cons_of_mem _ (ih (k :: seen) x hx2)

/-- The batch tokens are pairwise distinct. -/
theorem tokenize_keys_nodup (raw : Str) : (tokenize_keys raw).Nodup :=
  (dedupeAux_nodup _ []).1

/-- The normalization step leaves no comma, semicolon, tab or space. -/
theorem normalize_text_no_sep (raw : Str) :
    ∀ c ∈ normalize_text raw, ¬(c = ',' ∨ c = ';' ∨ c = '\t' ∨ c = ' ') := by
  intro c hc
  obtain ⟨x, _, hx⟩ := List.mem_map.1 hc
  subst hx
  unfold normalizeSep
  split
  · intro h
    rcases h with h | h | h | h <;> simp at h
  · rename_i hcond
    intro h
    apply hcond
    simp only [Bool.or_eq_true, decide_eq_true_eq]
    tauto

/-- Every token of the import parser is non-empty, free of the separator
characters and of every line break, and carries no leading or trailing
whitespace. -/
theorem tokenize_keys_props (raw : Str) :
    ∀ k ∈ tokenize_keys raw, k ≠ [] ∧ pyStrip k = k ∧
      ∀ c ∈ k, isSpecSep c = false ∧ isLineBreak c = false := by
  intro k hk
  have hk2 := dedupeAux_subset _ [] k hk
  have hk3 := List.mem_filter.1 hk2
  obtain ⟨hkmap, hkne⟩ := hk3
  obtain ⟨line, hline, hstrip⟩ := List.mem_map.1 hkmap
  have hne : k ≠ [] := by
    intro hcontra
    rw [hcontra] at hkne
    simp at hkne
  refine ⟨hne, by rw [← hstrip, pyStrip_idem], ?_⟩
  intro c hc
  have hcl : c ∈ line := mem_of_mem_pyStrip (hstrip ▸ hc)
  have hnb : isLineBreak c = false :=
    pySplitlines_no_break (normalize_text raw) line hline c hcl
  have hcn : c ∈ normalize_text raw :=
    pySplitlines_subset (normalize_text raw) line hline c hcl
  have hns := normalize_text_no_sep raw c hcn
  constructor
  · have hlf : ¬ c = '\n' := by
      intro hcontra
      rw [hcontra] at hnb
      simp [isLineBreak] at hnb
    simp [isSpecSep]
    tauto
  · exact hnb

/-- C5 counterexample: on the input a-CR-b the code splits at the carriage
return (str.splitlines recognises it as a line break) and imports two keys,
while the parsing rule stated by the specification (split only on newline,
comma, semicolon, tab, space) would produce the single token a-CR-b. -/
theorem c5_parsing_rule_counterexample :
    tokenize_keys ['a', '\r', 'b'] = [['a'], ['b']] ∧
    spec_tokenize ['a', '\r', 'b'] = [['a', '\r', 'b']] ∧
    ¬ tokenize_keys ['a', '\r', 'b'] = spec_tokenize ['a', '\r', 'b'] ∧
    (add_stock_via_text Store.empty ['t'] ['d'] ['a', '\r', 'b'] []).added = 2 ∧
    (spec_tokenize ['a', '\r', 'b']).length = 1 := by
  have h0 : pySplitlines (normalize_text ['a', '\r', 'b']) = [['a'], ['b']] := by
    simp [normalize_text, normalizeSep, pySplitlines, splitlinesAux, dropLFHead,
      isLineBreak]
  have h1 : tokenize_keys ['a', '\r', 'b'] = [['a'], ['b']] := by
    unfold tokenize_keys
    rw [h0]
    decide
  have h2 : spec_tokenize ['a', '\r', 'b'] = [['a', '\r', 'b']] := by
    decide
  refine ⟨h1, h2, by rw [h1, h2]; decide, ?_, by rw [h2]; rfl⟩
  show (importLoop Store.empty ['t'] ['d'] (tokenize_keys ['a', '\r', 'b'])).2.1.length = 2
  rw [h1]
  decide

/-- C5 (amended): the import parser splits rawText on the five separators
named by the specification plus the remaining line-break characters
recognised by str.splitlines (carriage return, vertical tab, form feed,
FS, GS, RS, NEL, LS, PS), trims each token, discards empties and dedupes
keeping first occurrences; added counts the surviving tokens not yet in
the store and duplicates counts those already present, batch repeats in
neither; re-importing the same text then yields (0, K) for its K unique
tokens. -/
theorem c5_import_parsing_amended (s : Store) (program duration raw file : Str) :
    tokenize_keys raw = ext_tokenize raw ∧
    (add_stock_via_text s program duration raw file).added =
      ((tokenize_keys raw).filter (fun k => k ∉ s.values)).length ∧
    (add_stock_via_text s program duration raw file).skipped =
      ((tokenize_keys raw).filter (fun k => k ∈ s.values)).length ∧
    (add_stock_via_text (add_stock_via_text s program duration raw file).store
      program duration raw
      (add_stock_via_text s program duration raw file).file).added = 0 ∧
    (add_stock_via_text (add_stock_via_text s program duration raw file).store
      program duration raw
      (add_stock_via_text s program duration raw file).file).skipped =
      (tokenize_keys raw).length := by
  obtain ⟨hadd, hskip⟩ :=
    importLoop_counts program duration (tokenize_keys raw) (tokenize_keys_nodup raw) s
  have haddlen : (add_stock_via_text s program duration raw file).added =
      ((tokenize_keys raw).filter (fun k => k ∉ s.values)).length := by
    show (importLoop s program duration (tokenize_keys raw)).2.1.length = _
    rw [hadd]
  have hskiplen : (add_stock_via_text s program duration raw file).skipped =
      ((tokenize_keys raw).filter (fun k => k ∈ s.values)).length := by
    show (importLoop s program duration (tokenize_keys raw)).2.2 = _
    rw [hskip]
  have hvals2 : (add_stock_via_text s program duration raw file).store.values =
      s.values ++ (tokenize_keys raw).filter (fun k => k ∉ s.values) := by
    show (importLoop s program duration (tokenize_keys raw)).1.values = _
    rw [importLoop_values, hadd]
  have hmem2 : ∀ k ∈ tokenize_keys raw,
      k ∈ (add_stock_via_text s program duration raw file).store.values := by
    intro k hk
    rw [hvals2]
    by_cases hks : k ∈ s.values
    · exact List.mem_append_left _ hks
    · exact List.mem_append_right _ (List.mem_filter.2 ⟨hk, by simpa using hks⟩)
  obtain ⟨hadd2, hskip2⟩ := importLoop_counts program duration (tokenize_keys raw)
    (tokenize_keys_nodup raw) (add_stock_via_text s program duration raw file).store
  have hfilter_nil : (tokenize_keys raw).filter
      (fun k => k ∉ (add_stock_via_text s program duration raw file).store.values)
        = [] :=
    List.filter_eq_nil_iff.2 (fun k hk => by simpa using hmem2 k hk)
  have hfilter_all : (tokenize_keys raw).filter
      (fun k => k ∈ (add_stock_via_text s program duration raw file).store.values)
        = tokenize_keys raw :=
    List.filter_eq_self.2 (fun k hk => by simpa using hmem2 k hk)
  refine ⟨tokenize_keys_eq_ext raw, haddlen, hskiplen, ?_, ?_⟩
  · show (importLoop (add_stock_via_text s program duration raw file).store
      program duration (tokenize_keys raw)).2.1.length = 0
    rw [hadd2, hfilter_nil]
    rfl
  · show (importLoop (add_stock_via_text s program duration raw file).store
      program duration (tokenize_keys raw)).2.2 = _
    rw [hskip2, hfilter_all]

/-- C10: every key row present after an import either predates it or
carries a value that is a batch token: non-empty, free of newline, comma,
semicolon, tab and space (indeed of every line-break character), with no
leading or trailing whitespace, so that its mirror line holds exactly that
one complete value. -/
theorem c10_imported_values_wellformed (s : Store) (program duration raw file : Str)
    (r : KeyRow) (hr : r ∈ (add_stock_via_text s program duration raw file).store.rows) :
    r ∈ s.rows ∨
      (r.value ∈ tokenize_keys raw ∧ r.value ≠ [] ∧ pyStrip r.value = r.value ∧
       (∀ c ∈ r.value, isSpecSep c = false ∧ isLineBreak c = false) ∧
       pySplitlines (mirrorLine r.value) = [r.value]) := by
  obtain ⟨newRows, h1, h2, h3, _, _⟩ :=
    importLoop_spec program duration (tokenize_keys raw) s
  have hr2 : r ∈ s.rows ++ newRows := by
    rw [← h1]
    exact hr
  rcases List.mem_append.1 hr2 with hmem | hmem
  · exact Or.inl hmem
  · right
    have hval : r.value ∈ (importLoop s program duration (tokenize_keys raw)).2.1 := by
      rw [← h2]
      exact List.mem_map_of_mem _ hmem
    have hvtok : r.value ∈ tokenize_keys raw := h3.subset hval
    obtain ⟨hne, hfix, hchars⟩ := tokenize_keys_props raw r.value hvtok
    refine ⟨hvtok, hne, hfix, hchars, ?_⟩
    have hnb : ∀ c ∈ r.value, isLineBreak c = false := fun c hc => (hchars c hc).2
    show pySplitlines (r.value ++ ['\n']) = [r.value]
    have hline := splitlinesAux_append_line r.value hnb [] []
    simp only [List.reverse_nil, List.nil_append] at hline
    rw [show (r.value ++ ['\n'] : Str) = r.value ++ '\n' :: [] from rfl]
    show splitlinesAux [] (r.value ++ '\n' :: []) = [r.value]
    rw [hline]
    simp [splitlinesAux]

/-- Witness for C10 on importing the single key K into the fresh store. -/
theorem c10_imported_values_wellformed_witness :
    ((⟨1, ['t'], ['d'], ['K'], none, none, none⟩ : KeyRow) ∈
      (add_stock_via_text Store.empty ['t'] ['d'] ['K'] []).store.rows) ∧
    ((⟨1, ['t'], ['d'], ['K'], none, none, none⟩ : KeyRow) ∈ Store.empty.rows ∨
      ((⟨1, ['t'], ['d'], ['K'], none, none, none⟩ : KeyRow).value ∈
          tokenize_keys ['K'] ∧
       (⟨1, ['t'], ['d'], ['K'], none, none, none⟩ : KeyRow).value ≠ [] ∧
       pyStrip (⟨1, ['t'], ['d'], ['K'], none, none, none⟩ : KeyRow).value =
         (⟨1, ['t'], ['d'], ['K'], none, none, none⟩ : KeyRow).value ∧
       (∀ c ∈ (⟨1, ['t'], ['d'], ['K'], none, none, none⟩ : KeyRow).value,
         isSpecSep c = false ∧ isLineBreak c = false) ∧
       pySplitlines (mirrorLine
         (⟨1, ['t'], ['d'], ['K'], none, none, none⟩ : KeyRow).value) =
         [(⟨1, ['t'], ['d'], ['K'], none, none, none⟩ : KeyRow).value])) := by
  have h0 : pySplitlines (normalize_text ['K']) = [['K']] := by
    simp [normalize_text, normalizeSep, pySplitlines, splitlinesAux, dropLFHead,
      isLineBreak]
  have htok : tokenize_keys ['K'] = [['K']] := by
    unfold tokenize_keys
    rw [h0]
    decide
  have hr : (⟨1, ['t'], ['d'], ['K'], none, none, none⟩ : KeyRow) ∈
      (add_stock_via_text Store.empty ['t'] ['d'] ['K'] []).store.rows := by
    show _ ∈ (importLoop Store.empty ['t'] ['d'] (tokenize_keys ['K'])).1.rows
    rw [htok]
    decide
  exact ⟨hr, c10_imported_values_wellformed Store.empty ['t'] ['d'] ['K'] [] _ hr⟩

end LicenseBot
